import Mathlib

/-!
Shallow embedding of `contrib/reuse/reuse-headers.py` from dtn7/dtn7-gold.

The script computes per-file copyright ownership from git history: the
output of `git log --pretty=format:%an%x00%at` is split into lines, each
line into (author, timestamp) fields, timestamps are turned into year
strings, author aliases are rewritten via a static table, and the
resulting (author, year) pairs are aggregated into one
(file, author, years-string) triple per canonical author.

Python-specific behaviour is modelled explicitly:
* `str.split("\n")` and `str.split(chr(0))` keep empty fragments and
  return at least one fragment (`splitOnChar`);
* `str.split()` with no argument splits on runs of whitespace and drops
  empty fragments (`pySplitWs`);
* `dict` preserves insertion order (association list);
* `set(...)` iterates in an unspecified order over the distinct
  elements; we quantify over every list `s` satisfying `IsPySet s l`;
* `list.sort()` on the (duplicate-free) year lists is insertion sort
  with Python's lexicographic string comparison (`lexLt`);
* exceptions (`CalledProcessError`, `IndexError`, `ValueError`) become
  an `Except PyError` result;
* `datetime.fromtimestamp(..).strftime("%Y")` depends on the local
  timezone, so it is an explicit function argument `toYear`.
-/

namespace ReuseHeaders

/-- Line 14: the license applied to every file. -/
def DEFAULT_LICENSE : String := "GPL-3.0-or-later"

/-- Line 17: the author-alias rewrite table, as an insertion-ordered dict. -/
def AUTHOR_REWRITE : List (String × String) := [("Alvar", "Alvar Penning")]

/-- Lines 20-24: files excluded from header generation. -/
def FILE_IGNORE : List String :=
  ["go.mod", "go.sum",
   ".reuse/dep5",
   "LICENSE", "LICENSES/CC0-1.0.txt", "LICENSES/GPL-3.0-or-later.txt"]

/-- Line 28: an ownership record is a triple (filename, author, years). -/
abbrev Ownership := String × String × String

/-- Python `dict.get k dflt` over an association list (first binding wins). -/
def dictGet (d : List (String × String)) (k dflt : String) : String :=
  match d with
  | [] => dflt
  | p :: ps => if p.1 = k then p.2 else dictGet ps k dflt

/-- Line 51: `AUTHOR_REWRITE.get(author, author)`, the identity normalizer. -/
def rewrite (a : String) : String := dictGet AUTHOR_REWRITE a a

/-- Python string comparison `s < t`: lexicographic on the character
sequences, by code point. -/
def lexLt : List Char → List Char → Bool
  | [], [] => false
  | [], _ :: _ => true
  | _ :: _, [] => false
  | a :: as, b :: bs => if a < b then true else if b < a then false else lexLt as bs

/-- Python `s <= t` on strings: `t < s` does not hold. -/
def strLe (s t : String) : Bool := !(lexLt t.data s.data)

/-- Strict string order as a proposition. -/
def strLt (s t : String) : Prop := lexLt s.data t.data = true

instance (s t : String) : Decidable (strLt s t) := by unfold strLt; exact inferInstance

/-- Insert a string into a list, before the first element it is `<=` to. -/
def insertSorted (y : String) : List String → List String
  | [] => [y]
  | x :: xs => if strLe y x then y :: x :: xs else x :: insertSorted y xs

/-- Line 57: `owner_grp[author].sort()`.  Python's timsort is modelled by
insertion sort; on the duplicate-free lists sorted here both produce the
unique ascending reordering. -/
def pySort : List String → List String
  | [] => []
  | x :: xs => insertSorted x (pySort xs)

/-- First binding of key `k` in the association list, Python `d[k]`. -/
def lookupKey (k : String) : List (String × List String) → Option (List String)
  | [] => none
  | p :: ps => if p.1 = k then some p.2 else lookupKey k ps

/-- Python `d[k] = v` for a key already present: replace the binding in place. -/
def updateValue (g : List (String × List String)) (k : String) (v : List String) :
    List (String × List String) :=
  g.map fun p => if p.1 = k then (k, v) else p

/-- Lines 53-57: one iteration of the aggregation loop body, after the
author has been rewritten.  A fresh author is appended (dict insertion
order); a fresh year is appended to the author's list, which is then
sorted; a repeated (author, year) pair leaves the dict unchanged. -/
def grpInsert (g : List (String × List String)) (author year : String) :
    List (String × List String) :=
  match lookupKey author g with
  | none => g ++ [(author, [year])]
  | some ys => if year ∈ ys then g else updateValue g author (pySort (ys ++ [year]))

/-- Lines 49-57: the aggregation loop.  `setPairs` is the list of
(author, year) pairs in the order the Python `set` iterates them. -/
def owner_grp (setPairs : List (String × String)) : List (String × List String) :=
  setPairs.foldl (fun g ay => grpInsert g (rewrite ay.1) ay.2) []

/-- Lines 59-60: flatten the dict into (file, author, ", ".join(years)). -/
def ownersFor (f : String) (g : List (String × List String)) : List Ownership :=
  g.map fun ay => (f, ay.1, String.intercalate ", " ay.2)

/-- Line 61: comparison used by `sorted(owners, key=lambda o: o[1], reverse=True)`. -/
def ownerDescLe (o₁ o₂ : Ownership) : Bool := strLe o₂.2.1 o₁.2.1

/-- Insertion step of the discarded descending-by-author sort. -/
def insertOwnerDesc (o : Ownership) : List Ownership → List Ownership
  | [] => [o]
  | x :: xs => if ownerDescLe o x then o :: x :: xs else x :: insertOwnerDesc o xs

/-- Line 61: `sorted(owners, key=lambda owner: owner[1], reverse=True)`.
Python's `sorted` builds a new list and leaves its argument untouched. -/
def sortedOwnersDesc : List Ownership → List Ownership
  | [] => []
  | x :: xs => insertOwnerDesc x (sortedOwnersDesc xs)

/-- Lines 49-63 of `file_authors`, from the deduplicated
(author, year) pairs (in set-iteration order) to the returned list.
The value of the `sorted(...)` expression statement is discarded. -/
def file_authors (f : String) (setPairs : List (String × String)) : List Ownership :=
  let owners := ownersFor f (owner_grp setPairs)
  let _ := sortedOwnersDesc owners
  owners

/-- Modelled from the spec: `file_authors` with the dead `sorted(...)`
statement of line 61 removed, the reimplementation §9 of the spec calls
"drop the dead sort entirely". -/
def file_authors_nosort (f : String) (setPairs : List (String × String)) : List Ownership :=
  ownersFor f (owner_grp setPairs)

/-- Exceptions the script can raise. -/
inductive PyError where
  | calledProcessError (code : Nat)
  | indexError
  | valueError
  deriving DecidableEq, Repr

/-- Python `str.split(sep)` for a one-character separator: keeps empty
fragments and always returns at least one fragment (`"".split(c) == [""]`). -/
def splitOnChar (sep : Char) : List Char → List (List Char)
  | [] => [[]]
  | c :: cs =>
    if c = sep then [] :: splitOnChar sep cs
    else
      match splitOnChar sep cs with
      | r :: rs => (c :: r) :: rs
      | [] => [[c]]

/-- Numeric value of a digit character. -/
def digitVal (c : Char) : Nat := c.toNat - 48

/-- Value of a most-significant-first digit string. -/
def natOfDigits : List Char → Nat
  | [] => 0
  | c :: cs => digitVal c * 10 ^ cs.length + natOfDigits cs

/-- Python `int(s)` on the timestamp field: an optional sign followed by
digits; anything else raises `ValueError`. -/
def pyInt : List Char → Except PyError Int
  | '-' :: ds =>
    if ds ≠ [] ∧ ds.all Char.isDigit then .ok (-(natOfDigits ds : Int))
    else .error .valueError
  | ds =>
    if ds ≠ [] ∧ ds.all Char.isDigit then .ok (natOfDigits ds)
    else .error .valueError

/-- The NUL field separator `chr(0)` of the `--pretty` format. -/
def NUL : Char := Char.ofNat 0

/-- Lines 46-47, for one log line already split at NUL: `tpl[0]` is the
author, `tpl[1]` the timestamp; a line without a NUL has no `tpl[1]` and
raises `IndexError`.  `toYear` stands for
`datetime.fromtimestamp(·).strftime("%Y")` (local time). -/
def parseTpl (toYear : Int → String) (tpl : List (List Char)) :
    Except PyError (String × String) :=
  match tpl.get? 1 with
  | none => .error .indexError
  | some ts =>
    match pyInt ts with
    | .error e => .error e
    | .ok n => .ok (String.mk (tpl.headD []), toYear n)

/-- Lines 42-47: split the raw `git log` output into lines, each line at
NUL, reverse into chronological order, and convert each entry into an
(author, year string) pair; the first failing entry aborts. -/
def parse_owners_year (stdout : String) (toYear : Int → String) :
    Except PyError (List (String × String)) :=
  let owners_raw := splitOnChar '\n' stdout.data
  let owners_tpl := owners_raw.map (splitOnChar NUL)
  owners_tpl.reverse.mapM (parseTpl toYear)

/-- Result of one external process invocation. -/
structure ProcResult where
  returncode : Nat
  stdout : String

/-- Lines 31-36: `subprocess.run(["git"] + cmds, ..., check=True)`:
`check=True` raises `CalledProcessError` whenever the exit status is
non-zero, otherwise the captured stdout is returned. -/
def git (r : ProcResult) : Except PyError String :=
  if r.returncode = 0 then .ok r.stdout else .error (.calledProcessError r.returncode)

/-- Lines 39-63, the whole of `file_authors` for one file: run git,
parse the log, iterate the deduplicating `set` (its unspecified
iteration order is `setOrder`, constrained by `IsPySet` in theorems) and
aggregate.  Any raised exception propagates; nothing is caught. -/
def file_authors_exec (f : String) (gitLog : ProcResult) (toYear : Int → String)
    (setOrder : List (String × String) → List (String × String)) :
    Except PyError (List Ownership) :=
  match git gitLog with
  | .error e => .error e
  | .ok out =>
    match parse_owners_year out toYear with
    | .error e => .error e
    | .ok pairs => .ok (file_authors f (setOrder pairs))

/-- Line 50: `s` is a possible iteration order of Python's `set(l)`:
duplicate-free and containing exactly the elements of `l`. -/
def IsPySet (s l : List (String × String)) : Prop :=
  s.Nodup ∧ (∀ x ∈ s, x ∈ l) ∧ (∀ x ∈ l, x ∈ s)

instance (s l : List (String × String)) : Decidable (IsPySet s l) := by
  unfold IsPySet; exact inferInstance

/-- Characters Python's no-argument `str.split()` treats as whitespace
(the ASCII ones; `git ls-files` output contains no others). -/
def isPySpace (c : Char) : Bool :=
  c == ' ' || c == '\t' || c == '\n' || c == '\r' || c == Char.ofNat 11 || c == Char.ofNat 12

/-- Worker for `pySplitWs`; `acc` holds the current fragment reversed. -/
def splitWsAux : List Char → List Char → List (List Char)
  | [], acc => if acc = [] then [] else [acc.reverse]
  | c :: cs, acc =>
    if isPySpace c then
      if acc = [] then splitWsAux cs []
      else acc.reverse :: splitWsAux cs []
    else splitWsAux cs (c :: acc)

/-- Python `str.split()` with no argument: split on runs of whitespace,
yielding no empty fragments. -/
def pySplitWs (s : List Char) : List (List Char) := splitWsAux s []

/-- Line 75: `filter(lambda f: f not in FILE_IGNORE, git(["ls-files"]).split())`. -/
def tracked_files (lsOut : String) : List String :=
  ((pySplitWs lsOut.data).map String.mk).filter fun f => decide (f ∉ FILE_IGNORE)

/-- Lines 77-79: concatenate `file_authors` over the tracked files.
`hist f` stands for that file's parsed log in set-iteration order, so the
lemmas about this definition hold for every git history whatsoever. -/
def main_owners (lsOut : String) (hist : String → List (String × String)) :
    List Ownership :=
  (tracked_files lsOut).foldl (fun acc f => acc ++ file_authors f (hist f)) []

/-- Raw stdout of `git ls-files`: one tracked path per line. -/
def lsFilesStdout (paths : List String) : String :=
  String.join (paths.map (· ++ "\n"))

/-- Keys of the dict, in insertion order. -/
def keys (g : List (String × List String)) : List String := g.map Prod.fst

/-- Years currently stored for an author (empty if absent). -/
def yearsOf (a : String) (g : List (String × List String)) : List String :=
  (lookupKey a g).getD []

/-- Invariant of `owner_grp`: distinct keys, each year list strictly
ascending in Python's string order. -/
def GoodGrp (g : List (String × List String)) : Prop :=
  (keys g).Nodup ∧ ∀ ay ∈ g, ay.2.Pairwise strLt

end ReuseHeaders

namespace ReuseHeaders

/-! Order lemmas for Python's lexicographic string comparison. -/

theorem lexLt_irrefl : ∀ a : List Char, lexLt a a = false
  | [] => rfl
  | c :: cs => by simp [lexLt, lexLt_irrefl cs]

theorem lexLt_asymm : ∀ a b : List Char, lexLt a b = true → lexLt b a = false
  | [], [], h => by simp [lexLt] at h
  | [], _ :: _, _ => rfl
  | _ :: _, [], h => by simp [lexLt] at h
  | a :: as, b :: bs, h => by
    simp only [lexLt] at h ⊢
    rcases lt_trichotomy a b with hab | hab | hab
    · simp [not_lt.mpr hab.le, hab]
    · subst hab
      simp only [lt_irrefl, if_false] at h ⊢
      exact lexLt_asymm as bs h
    · simp [not_lt.mpr hab.le, hab] at h

theorem lexLt_trans : ∀ a b c : List Char,
    lexLt a b = true → lexLt b c = true → lexLt a c = true
  | [], [], _, h1, _ => by simp [lexLt] at h1
  | [], _ :: _, [], _, h2 => by simp [lexLt] at h2
  | [], _ :: _, _ :: _, _, _ => rfl
  | _ :: _, [], _, h1, _ => by simp [lexLt] at h1
  | _ :: _, _ :: _, [], _, h2 => by simp [lexLt] at h2
  | a :: as, b :: bs, c :: cs, h1, h2 => by
    simp only [lexLt] at h1 h2 ⊢
    rcases lt_trichotomy a b with hab | hab | hab
    · rcases lt_trichotomy b c with hbc | hbc | hbc
      · simp [lt_trans hab hbc]
      · subst hbc; simp [hab]
      · simp [not_lt.mpr hbc.le, hbc] at h2
    · subst hab
      rcases lt_trichotomy a c with hac | hac | hac
      · simp [hac]
      · subst hac
        simp only [lt_irrefl, if_false] at h1 h2 ⊢
        exact lexLt_trans as bs cs h1 h2
      · simp [not_lt.mpr hac.le, hac] at h2
    · simp [not_lt.mpr hab.le, hab] at h1

theorem lexLt_connex : ∀ a b : List Char,
    lexLt a b = false → lexLt b a = false → a = b
  | [], [], _, _ => rfl
  | [], _ :: _, h1, _ => by simp [lexLt] at h1
  | _ :: _, [], _, h2 => by simp [lexLt] at h2
  | a :: as, b :: bs, h1, h2 => by
    simp only [lexLt] at h1 h2
    rcases lt_trichotomy a b with hab | hab | hab
    · simp [hab] at h1
    · subst hab
      simp only [lt_irrefl, if_false] at h1 h2
      rw [lexLt_connex as bs h1 h2]
    · simp [not_lt.mpr hab.le, hab] at h2

theorem string_eq_of_data_eq {s t : String} (h : s.data = t.data) : s = t := by
  cases s
  cases t
  exact congrArg String.mk h

theorem strLe_total (s t : String) : strLe s t = true ∨ strLe t s = true := by
  unfold strLe
  cases h : lexLt t.data s.data
  · left; rfl
  · right; rw [lexLt_asymm _ _ h]; rfl

theorem strLe_trans {s t u : String} (h1 : strLe s t = true) (h2 : strLe t u = true) :
    strLe s u = true := by
  unfold strLe at h1 h2 ⊢
  rw [Bool.not_eq_eq_eq_not, Bool.not_true] at h1 h2
  cases h : lexLt u.data s.data
  · rfl
  · exfalso
    cases h' : lexLt s.data t.data
    · rw [lexLt_connex _ _ h' h1] at h
      rw [h] at h2
      cases h2
    · have := lexLt_trans _ _ _ h h'
      rw [this] at h2
      cases h2

theorem strLt_ne {s t : String} (h : strLt s t) : s ≠ t := by
  intro he
  subst he
  rw [strLt, lexLt_irrefl] at h
  cases h

theorem strLt_of_le_ne {s t : String} (h : strLe s t = true) (hne : s ≠ t) : strLt s t := by
  rw [strLe, Bool.not_eq_eq_eq_not, Bool.not_true] at h
  rw [strLt]
  cases h' : lexLt s.data t.data
  · exact absurd (string_eq_of_data_eq (lexLt_connex _ _ h' h)) hne
  · rfl

theorem strLt_trans {s t u : String} (h1 : strLt s t) (h2 : strLt t u) : strLt s u :=
  lexLt_trans _ _ _ h1 h2

instance : IsAntisymm String strLt :=
  ⟨fun a b h1 h2 => by
    have h3 := lexLt_asymm _ _ h1
    rw [strLt] at h2
    rw [h2] at h3
    cases h3⟩

instance : IsTrans String strLt := ⟨fun _ _ _ => strLt_trans⟩

end ReuseHeaders

namespace ReuseHeaders

/-! Lemmas about the `list.sort()` model `pySort`. -/

theorem mem_insertSorted {y x : String} : ∀ {l : List String},
    x ∈ insertSorted y l ↔ x = y ∨ x ∈ l
  | [] => by simp [insertSorted]
  | a :: as => by
    simp only [insertSorted]
    split
    · simp [List.mem_cons]
    · simp only [List.mem_cons, mem_insertSorted]
      tauto

theorem insertSorted_perm (y : String) : ∀ l : List String, List.Perm (insertSorted y l) (y :: l)
  | [] => List.Perm.refl _
  | a :: as => by
    simp only [insertSorted]
    split
    · exact List.Perm.refl _
    · exact (List.Perm.cons a (insertSorted_perm y as)).trans (List.Perm.swap y a as)

theorem pySort_perm : ∀ l : List String, List.Perm (pySort l) l
  | [] => List.Perm.refl _
  | a :: as => (insertSorted_perm a (pySort as)).trans ((pySort_perm as).cons a)

theorem mem_pySort {x : String} {l : List String} : x ∈ pySort l ↔ x ∈ l :=
  (pySort_perm l).mem_iff

theorem insertSorted_pairwise {y : String} : ∀ {l : List String},
    l.Pairwise (fun a b => strLe a b = true) →
    (insertSorted y l).Pairwise (fun a b => strLe a b = true)
  | [], _ => by simp [insertSorted]
  | a :: as, h => by
    rw [List.pairwise_cons] at h
    simp only [insertSorted]
    split
    · rename_i hya
      rw [List.pairwise_cons]
      refine ⟨fun b hb => ?_, List.pairwise_cons.mpr h⟩
      rcases List.mem_cons.mp hb with rfl | hb
      · exact hya
      · exact strLe_trans hya (h.1 b hb)
    · rename_i hya
      rw [List.pairwise_cons]
      refine ⟨fun b hb => ?_, insertSorted_pairwise h.2⟩
      rcases mem_insertSorted.mp hb with rfl | hb
      · rcases strLe_total a b with h' | h'
        · exact h'
        · exact absurd h' hya
      · exact h.1 b hb

theorem pySort_pairwise : ∀ l : List String,
    (pySort l).Pairwise (fun a b => strLe a b = true)
  | [] => List.Pairwise.nil
  | _ :: as => insertSorted_pairwise (pySort_pairwise as)

theorem pairwise_strLt_of_le_nodup : ∀ {l : List String},
    l.Pairwise (fun a b => strLe a b = true) → l.Nodup → l.Pairwise strLt
  | [], _, _ => List.Pairwise.nil
  | a :: as, h, hn => by
    rw [List.pairwise_cons] at h
    rw [List.nodup_cons] at hn
    rw [List.pairwise_cons]
    refine ⟨fun b hb => strLt_of_le_ne (h.1 b hb) fun he => hn.1 (he ▸ hb), ?_⟩
    exact pairwise_strLt_of_le_nodup h.2 hn.2

theorem pySort_pairwise_strLt {l : List String} (hn : l.Nodup) :
    (pySort l).Pairwise strLt :=
  pairwise_strLt_of_le_nodup (pySort_pairwise l) ((pySort_perm l).nodup_iff.mpr hn)

theorem pairwise_strLt_nodup {l : List String} (h : l.Pairwise strLt) : l.Nodup :=
  h.imp fun hab => strLt_ne hab

theorem eq_of_pairwise_strLt {l₁ l₂ : List String} (h₁ : l₁.Pairwise strLt)
    (h₂ : l₂.Pairwise strLt) (hm : ∀ x, x ∈ l₁ ↔ x ∈ l₂) : l₁ = l₂ := by
  have hp : List.Perm l₁ l₂ :=
    (List.perm_ext_iff_of_nodup (pairwise_strLt_nodup h₁) (pairwise_strLt_nodup h₂)).2 hm
  exact List.eq_of_perm_of_sorted hp h₁ h₂

end ReuseHeaders

namespace ReuseHeaders

/-! Lemmas about the ordered-dict model and the aggregation loop. -/

theorem lookupKey_eq_none {k : String} : ∀ {g : List (String × List String)},
    lookupKey k g = none ↔ k ∉ keys g
  | [] => by simp [lookupKey, keys]
  | p :: ps => by
    simp only [lookupKey, keys, List.map_cons, List.mem_cons]
    split
    · rename_i hpk
      simp [hpk]
    · rename_i hpk
      rw [lookupKey_eq_none]
      simp only [keys]
      constructor
      · intro h hc
        rcases hc with hc | hc
        · exact hpk hc.symm
        · exact h hc
      · intro h hc
        exact h (Or.inr hc)

theorem lookupKey_mem {k : String} {v : List String} :
    ∀ {g : List (String × List String)}, lookupKey k g = some v → (k, v) ∈ g
  | [], h => by simp [lookupKey] at h
  | p :: ps, h => by
    rw [lookupKey] at h
    split at h
    · rename_i hpk
      rcases Option.some.inj h with rfl
      rw [← hpk]
      exact List.mem_cons_self p ps
    · exact List.mem_cons_of_mem p (lookupKey_mem h)

theorem lookupKey_append_some {k : String} {v : List String}
    {g h : List (String × List String)} (hg : lookupKey k g = some v) :
    lookupKey k (g ++ h) = some v := by
  induction g with
  | nil => simp [lookupKey] at hg
  | cons p ps ih =>
    rw [lookupKey] at hg
    rw [List.cons_append, lookupKey]
    split at hg
    · rename_i hpk
      rw [if_pos hpk]
      exact hg
    · rename_i hpk
      rw [if_neg hpk]
      exact ih hg

theorem lookupKey_append_none {k : String} {g h : List (String × List String)}
    (hg : lookupKey k g = none) : lookupKey k (g ++ h) = lookupKey k h := by
  induction g with
  | nil => simp
  | cons p ps ih =>
    rw [lookupKey] at hg
    rw [List.cons_append, lookupKey]
    split at hg
    · cases hg
    · rename_i hpk
      rw [if_neg hpk]
      exact ih hg

theorem keys_updateValue (g : List (String × List String)) (k : String) (v : List String) :
    keys (updateValue g k v) = keys g := by
  induction g with
  | nil => rfl
  | cons p ps ih =>
    simp only [updateValue, keys, List.map_cons] at ih ⊢
    split
    · rename_i hpk
      rw [ih, hpk]
    · rw [ih]

theorem mem_updateValue {g : List (String × List String)} {k : String} {v : List String}
    {p : String × List String} (h : p ∈ updateValue g k v) : p ∈ g ∨ p = (k, v) := by
  induction g with
  | nil => simp [updateValue] at h
  | cons q qs ih =>
    simp only [updateValue, List.map_cons, List.mem_cons] at h
    rcases h with h | h
    · split at h
      · exact Or.inr h
      · exact Or.inl (h ▸ List.mem_cons_self q qs)
    · rcases ih h with h' | h'
      · exact Or.inl (List.mem_cons_of_mem q h')
      · exact Or.inr h'

theorem lookupKey_updateValue_self (g : List (String × List String)) (k : String)
    (v : List String) :
    lookupKey k (updateValue g k v) = (lookupKey k g).map fun _ => v := by
  induction g with
  | nil => simp [updateValue, lookupKey]
  | cons p ps ih =>
    simp only [updateValue] at ih
    by_cases hpk : p.1 = k
    · simp [updateValue, lookupKey, hpk]
    · simp [updateValue, lookupKey, hpk, ih]

theorem lookupKey_updateValue_other {a k : String} (hak : a ≠ k)
    (g : List (String × List String)) (v : List String) :
    lookupKey a (updateValue g k v) = lookupKey a g := by
  induction g with
  | nil => simp [updateValue, lookupKey]
  | cons p ps ih =>
    simp only [updateValue] at ih
    by_cases hpk : p.1 = k
    · have hka : ¬ (k = a) := fun hc => hak hc.symm
      have hpa : ¬ (p.1 = a) := fun hc => hak ((hc.symm.trans hpk))
      simp [updateValue, lookupKey, hpk, hka, hpa, ih]
    · by_cases hpa : p.1 = a
      · simp [updateValue, lookupKey, hpk, hpa, hak]
      · simp [updateValue, lookupKey, hpk, hpa, ih]

theorem yearsOf_grpInsert (g : List (String × List String)) (b y0 a y : String) :
    y ∈ yearsOf a (grpInsert g b y0) ↔ y ∈ yearsOf a g ∨ (a = b ∧ y = y0) := by
  cases hl : lookupKey b g with
  | none =>
    simp only [grpInsert, hl]
    by_cases hab : a = b
    · subst hab
      unfold yearsOf
      rw [lookupKey_append_none hl, hl]
      simp [lookupKey]
    · unfold yearsOf
      cases hla : lookupKey a g with
      | none =>
        rw [lookupKey_append_none hla]
        have hba : ¬ (b = a) := fun hc => hab hc.symm
        simp [lookupKey, hba, hab]
      | some ys =>
        rw [lookupKey_append_some hla]
        simp [hab]
  | some ys =>
    simp only [grpInsert, hl]
    by_cases hy0 : y0 ∈ ys
    · rw [if_pos hy0]
      by_cases hab : a = b
      · subst hab
        unfold yearsOf
        rw [hl]
        simp only [Option.getD_some]
        constructor
        · exact Or.inl
        · rintro (h | ⟨-, rfl⟩)
          · exact h
          · exact hy0
      · simp [hab]
    · rw [if_neg hy0]
      by_cases hab : a = b
      · subst hab
        unfold yearsOf
        rw [lookupKey_updateValue_self, hl]
        simp [mem_pySort, List.mem_append]
      · unfold yearsOf
        rw [lookupKey_updateValue_other hab]
        simp [hab]

theorem goodGrp_grpInsert {g : List (String × List String)} (hg : GoodGrp g)
    (b y0 : String) : GoodGrp (grpInsert g b y0) := by
  obtain ⟨hk, hys⟩ := hg
  cases hl : lookupKey b g with
  | none =>
    simp only [grpInsert, hl]
    constructor
    · rw [keys, List.map_append, List.nodup_append]
      refine ⟨hk, by simp, ?_⟩
      intro x hx hx1
      simp only [List.map_cons, List.map_nil, List.mem_singleton] at hx1
      subst hx1
      exact (lookupKey_eq_none.mp hl) hx
    · intro ay hay
      rcases List.mem_append.mp hay with h | h
      · exact hys ay h
      · rcases List.mem_singleton.mp h with rfl
        simp
  | some ys =>
    simp only [grpInsert, hl]
    by_cases hy0 : y0 ∈ ys
    · rw [if_pos hy0]
      exact ⟨hk, hys⟩
    · rw [if_neg hy0]
      constructor
      · rw [keys_updateValue]
        exact hk
      · intro ay hay
        rcases mem_updateValue hay with h | h
        · exact hys ay h
        · subst h
          apply pySort_pairwise_strLt
          have hysb : List.Pairwise strLt ys := hys _ (lookupKey_mem hl)
          rw [List.nodup_append]
          refine ⟨pairwise_strLt_nodup hysb, by simp, ?_⟩
          intro x hx hx1
          simp only [List.mem_singleton] at hx1
          subst hx1
          exact hy0 hx

theorem yearsOf_foldl (ps : List (String × String)) :
    ∀ (g : List (String × List String)) (a y : String),
      y ∈ yearsOf a (ps.foldl (fun g ay => grpInsert g (rewrite ay.1) ay.2) g) ↔
        y ∈ yearsOf a g ∨ ∃ p ∈ ps, rewrite p.1 = a ∧ p.2 = y := by
  induction ps with
  | nil =>
    intro g a y
    simp
  | cons q qs ih =>
    intro g a y
    rw [List.foldl_cons, ih, yearsOf_grpInsert]
    simp only [List.mem_cons]
    constructor
    · rintro ((h | ⟨rfl, rfl⟩) | ⟨p, hp, hr, hy⟩)
      · exact Or.inl h
      · exact Or.inr ⟨q, Or.inl rfl, rfl, rfl⟩
      · exact Or.inr ⟨p, Or.inr hp, hr, hy⟩
    · rintro (h | ⟨p, (rfl | hp), hr, hy⟩)
      · exact Or.inl (Or.inl h)
      · exact Or.inl (Or.inr ⟨hr.symm, hy.symm⟩)
      · exact Or.inr ⟨p, hp, hr, hy⟩

theorem mem_yearsOf_owner_grp {ps : List (String × String)} {a y : String} :
    y ∈ yearsOf a (owner_grp ps) ↔ ∃ p ∈ ps, rewrite p.1 = a ∧ p.2 = y := by
  rw [owner_grp, yearsOf_foldl]
  simp [yearsOf, lookupKey]

theorem goodGrp_foldl (ps : List (String × String)) :
    ∀ {g : List (String × List String)}, GoodGrp g →
      GoodGrp (ps.foldl (fun g ay => grpInsert g (rewrite ay.1) ay.2) g) := by
  induction ps with
  | nil =>
    intro g hg
    exact hg
  | cons q qs ih =>
    intro g hg
    exact ih (goodGrp_grpInsert hg _ _)

theorem goodGrp_owner_grp (ps : List (String × String)) : GoodGrp (owner_grp ps) := by
  apply goodGrp_foldl
  exact ⟨List.nodup_nil, fun ay h => by cases h⟩

theorem lookupKey_of_yearsOf_mem {a y : String} {g : List (String × List String)}
    (h : y ∈ yearsOf a g) : lookupKey a g = some (yearsOf a g) := by
  unfold yearsOf at h ⊢
  cases hl : lookupKey a g with
  | none =>
    rw [hl] at h
    cases h
  | some ys =>
    rfl

theorem pairwise_yearsOf {a : String} {g : List (String × List String)}
    (hg : GoodGrp g) : (yearsOf a g).Pairwise strLt := by
  unfold yearsOf
  cases hl : lookupKey a g with
  | none => exact List.Pairwise.nil
  | some ys => exact hg.2 _ (lookupKey_mem hl)

end ReuseHeaders

namespace ReuseHeaders

/-! Digit strings: lexicographic versus numeric comparison. -/

theorem isDigit_bounds {c : Char} (h : c.isDigit = true) : 48 ≤ c.toNat ∧ c.toNat ≤ 57 := by
  simp [Char.isDigit] at h
  obtain ⟨h1, h2⟩ := h
  rw [UInt32.le_def, BitVec.le_def] at h1 h2
  exact ⟨h1, h2⟩

theorem char_lt_toNat {a b : Char} (h : a < b) : a.toNat < b.toNat := by
  rw [Char.lt_def, UInt32.lt_def, BitVec.lt_def] at h
  exact h

theorem digitVal_lt {a b : Char} (ha : a.isDigit = true) (h : a < b) :
    digitVal a < digitVal b := by
  have h1 := (isDigit_bounds ha).1
  have h2 := char_lt_toNat h
  unfold digitVal
  omega

theorem digitVal_le {c : Char} (h : c.isDigit = true) : digitVal c ≤ 9 := by
  have := (isDigit_bounds h).2
  unfold digitVal
  omega

theorem natOfDigits_lt_pow : ∀ {l : List Char}, (∀ c ∈ l, c.isDigit = true) →
    natOfDigits l < 10 ^ l.length
  | [], _ => by simp [natOfDigits]
  | c :: cs, h => by
    have hc : digitVal c ≤ 9 := digitVal_le (h c (List.mem_cons_self c cs))
    have ih := natOfDigits_lt_pow fun x hx => h x (List.mem_cons_of_mem c hx)
    simp only [natOfDigits, List.length_cons]
    calc digitVal c * 10 ^ cs.length + natOfDigits cs
        < digitVal c * 10 ^ cs.length + 10 ^ cs.length := Nat.add_lt_add_left ih _
      _ = (digitVal c + 1) * 10 ^ cs.length := (Nat.succ_mul _ _).symm
      _ ≤ 10 * 10 ^ cs.length := Nat.mul_le_mul_right _ (by omega)
      _ = 10 ^ (cs.length + 1) := by rw [pow_succ, Nat.mul_comm]

theorem natOfDigits_head_lt {y z : Char} {ys zs : List Char} (hlen : ys.length = zs.length)
    (hys : ∀ c ∈ ys, c.isDigit = true) (hd : digitVal y < digitVal z) :
    natOfDigits (y :: ys) < natOfDigits (z :: zs) := by
  simp only [natOfDigits, hlen]
  have hby := natOfDigits_lt_pow hys
  rw [hlen] at hby
  calc digitVal y * 10 ^ zs.length + natOfDigits ys
      < digitVal y * 10 ^ zs.length + 10 ^ zs.length := Nat.add_lt_add_left hby _
    _ = (digitVal y + 1) * 10 ^ zs.length := (Nat.succ_mul _ _).symm
    _ ≤ digitVal z * 10 ^ zs.length := Nat.mul_le_mul_right _ hd
    _ ≤ digitVal z * 10 ^ zs.length + natOfDigits zs := Nat.le_add_right _ _

theorem digit_lexLt_iff : ∀ (ys zs : List Char), ys.length = zs.length →
    (∀ c ∈ ys, c.isDigit = true) → (∀ c ∈ zs, c.isDigit = true) →
    (lexLt ys zs = true ↔ natOfDigits ys < natOfDigits zs)
  | [], [], _, _, _ => by simp [lexLt, natOfDigits]
  | [], _ :: _, h, _, _ => by simp at h
  | _ :: _, [], h, _, _ => by simp at h
  | y :: ys, z :: zs, h, hy, hz => by
    have hlen : ys.length = zs.length := by simpa using h
    have hyd : y.isDigit = true := hy y (List.mem_cons_self y ys)
    have hzd : z.isDigit = true := hz z (List.mem_cons_self z zs)
    have hys' : ∀ c ∈ ys, c.isDigit = true := fun c hc => hy c (List.mem_cons_of_mem y hc)
    have hzs' : ∀ c ∈ zs, c.isDigit = true := fun c hc => hz c (List.mem_cons_of_mem z hc)
    rcases lt_trichotomy y z with hyz | hyz | hyz
    · rw [lexLt, if_pos hyz]
      constructor
      · intro _
        exact natOfDigits_head_lt hlen hys' (digitVal_lt hyd hyz)
      · intro _
        rfl
    · subst hyz
      rw [lexLt, if_neg (lt_irrefl y), if_neg (lt_irrefl y)]
      rw [digit_lexLt_iff ys zs hlen hys' hzs']
      simp only [natOfDigits, hlen]
      exact (Nat.add_lt_add_iff_left).symm
    · have hgt : natOfDigits (z :: zs) < natOfDigits (y :: ys) :=
        natOfDigits_head_lt hlen.symm hzs' (digitVal_lt hzd hyz)
      rw [lexLt, if_neg (asymm hyz), if_pos hyz]
      constructor
      · intro hc
        cases hc
      · intro hp
        exact absurd hp (Nat.lt_asymm hgt)

end ReuseHeaders

namespace ReuseHeaders

/-! Whitespace splitting and the main loop. -/

theorem splitWsAux_no_space : ∀ (cs acc : List Char),
    (∀ c ∈ acc, isPySpace c = false) →
    ∀ w ∈ splitWsAux cs acc, ∀ c ∈ w, isPySpace c = false
  | [], acc, hacc, w, hw => by
    rw [splitWsAux] at hw
    split at hw
    · cases hw
    · rcases List.mem_singleton.mp hw with rfl
      intro c hc
      exact hacc c (List.mem_reverse.mp hc)
  | c :: cs, acc, hacc, w, hw => by
    rw [splitWsAux] at hw
    split at hw
    · split at hw
      · exact splitWsAux_no_space cs [] (by simp) w hw
      · rcases List.mem_cons.mp hw with rfl | hw
        · intro x hx
          exact hacc x (List.mem_reverse.mp hx)
        · exact splitWsAux_no_space cs [] (by simp) w hw
    · rename_i hc
      refine splitWsAux_no_space cs (c :: acc) ?_ w hw
      intro x hx
      rcases List.mem_cons.mp hx with rfl | hx
      · simpa using hc
      · exact hacc x hx

theorem pySplitWs_no_space {s : List Char} {w : List Char} (hw : w ∈ pySplitWs s) :
    ∀ c ∈ w, isPySpace c = false :=
  splitWsAux_no_space s [] (by simp) w hw

theorem not_ignored_of_mem_tracked {f : String} {lsOut : String}
    (h : f ∈ tracked_files lsOut) : f ∉ FILE_IGNORE := by
  rw [tracked_files] at h
  have h2 := (List.mem_filter.mp h).2
  simpa using h2

theorem data_mem_split_of_mem_tracked {f : String} {lsOut : String}
    (h : f ∈ tracked_files lsOut) : f.data ∈ pySplitWs lsOut.data := by
  rw [tracked_files] at h
  obtain ⟨w, hw, rfl⟩ := List.mem_map.mp (List.mem_filter.mp h).1
  exact hw

theorem file_authors_fst {f : String} {s : List (String × String)} {r : Ownership}
    (h : r ∈ file_authors f s) : r.1 = f := by
  simp only [file_authors, ownersFor, List.mem_map] at h
  obtain ⟨ay, _, rfl⟩ := h
  rfl

theorem mem_foldl_owners (hist : String → List (String × String)) (r : Ownership) :
    ∀ (files : List String) (init : List Ownership),
      r ∈ files.foldl (fun acc f => acc ++ file_authors f (hist f)) init ↔
        r ∈ init ∨ ∃ f ∈ files, r ∈ file_authors f (hist f)
  | [], init => by simp
  | f0 :: fs, init => by
    rw [List.foldl_cons, mem_foldl_owners hist r fs]
    simp only [List.mem_append, List.mem_cons]
    constructor
    · rintro ((h | h) | ⟨f, hf, hr⟩)
      · exact Or.inl h
      · exact Or.inr ⟨f0, Or.inl rfl, h⟩
      · exact Or.inr ⟨f, Or.inr hf, hr⟩
    · rintro (h | ⟨f, (rfl | hf), hr⟩)
      · exact Or.inl (Or.inl h)
      · exact Or.inl (Or.inr hr)
      · exact Or.inr ⟨f, hf, hr⟩

theorem mem_main_owners {lsOut : String} {hist : String → List (String × String)}
    {r : Ownership} :
    r ∈ main_owners lsOut hist ↔ ∃ f ∈ tracked_files lsOut, r ∈ file_authors f (hist f) := by
  rw [main_owners, mem_foldl_owners]
  simp

/-! A duplicate-free list with the same members as an explicit pair is
one of its two orderings: classifies Python set iteration for C4. -/

theorem pySet_pair_cases {a b : String × String} (hab : a ≠ b)
    {s : List (String × String)} (h : IsPySet s [a, b]) :
    s = [a, b] ∨ s = [b, a] := by
  obtain ⟨hnd, hsub, hsup⟩ := h
  have ha : a ∈ s := hsup a (by simp)
  have hb : b ∈ s := hsup b (by simp)
  match s, hnd, hsub, ha, hb with
  | [], _, _, ha, _ => cases ha
  | [x], _, _, ha, hb =>
    rw [List.mem_singleton] at ha hb
    exact absurd (ha.trans hb.symm) hab
  | x :: y :: z :: t, hnd, hsub, _, _ =>
    exfalso
    have hx := hsub x (by simp)
    have hy := hsub y (by simp)
    have hz := hsub z (by simp)
    simp only [List.mem_cons, List.not_mem_nil, or_false] at hx hy hz
    simp only [List.nodup_cons, List.mem_cons] at hnd
    rcases hx with rfl | rfl <;> rcases hy with rfl | rfl <;> rcases hz with rfl | rfl <;>
      simp_all
  | [x, y], hnd, hsub, ha, hb =>
    have hx := hsub x (by simp)
    have hy := hsub y (by simp)
    simp only [List.mem_cons, List.not_mem_nil, or_false] at hx hy
    have hxy : x ≠ y := by
      simp only [List.nodup_cons, List.mem_cons] at hnd
      intro hc
      exact hnd.1 (Or.inl hc)
    rcases hx with rfl | rfl
    · rcases hy with rfl | rfl
      · exact absurd rfl hxy
      · exact Or.inl rfl
    · rcases hy with rfl | rfl
      · exact Or.inr rfl
      · exact absurd rfl hxy

end ReuseHeaders

namespace ReuseHeaders

/-! The claims. -/

/-- C1 (counterexample): on the empty `git log` output the script does
not return an empty result; it raises `IndexError`, because
`"".split("\n")` is `[""]` and the single empty line has no timestamp
field `tpl[1]`. -/
theorem empty_history_counterexample :
    file_authors_exec "a.txt" ⟨0, ""⟩ (fun _ => "") id = .error .indexError := rfl

/-- C1 (amended): for a file whose commit history is empty (the raw git
log output is the empty string), `file_authors` raises an `IndexError`
while parsing — for every year conversion and every set iteration order
— and therefore emits no ownership records; it does not return an empty
mapping. -/
theorem empty_history_raises (f : String) (toYear : Int → String)
    (setOrder : List (String × String) → List (String × String)) :
    file_authors_exec f ⟨0, ""⟩ toYear setOrder = .error .indexError := rfl

/-- C2: the sort-by-author-descending step on line 61 has no effect:
for every file name and every input pair sequence, `file_authors` with
the `sorted(...)` call removed returns exactly the same list, in the
same order, namely the insertion order of the author-to-years mapping. -/
theorem dead_sort_no_effect (f : String) (s : List (String × String)) :
    file_authors f s = file_authors_nosort f s ∧
      file_authors f s = ownersFor f (owner_grp s) :=
  ⟨rfl, rfl⟩

/-- C3: whenever the commits attributed to canonical author `a` span
exactly the years {2019, 2021, 2020}, the aggregated years-sequence of
`a` is `["2019", "2020", "2021"]`, for every commit order and every set
iteration order, and the emitted record joins them as
"2019, 2020, 2021". -/
theorem years_sorted_for_author (pairs s : List (String × String)) (a f : String)
    (hset : IsPySet s pairs)
    (hcover : ∀ p ∈ pairs, rewrite p.1 = a → p.2 ∈ ["2019", "2020", "2021"])
    (h19 : ∃ p ∈ pairs, rewrite p.1 = a ∧ p.2 = "2019")
    (h20 : ∃ p ∈ pairs, rewrite p.1 = a ∧ p.2 = "2020")
    (h21 : ∃ p ∈ pairs, rewrite p.1 = a ∧ p.2 = "2021") :
    lookupKey a (owner_grp s) = some ["2019", "2020", "2021"] ∧
      (f, a, "2019, 2020, 2021") ∈ file_authors f s := by
  obtain ⟨hnd, hs1, hs2⟩ := hset
  have htrans : ∀ y, (∃ p ∈ s, rewrite p.1 = a ∧ p.2 = y) ↔
      ∃ p ∈ pairs, rewrite p.1 = a ∧ p.2 = y := by
    intro y
    constructor
    · rintro ⟨p, hp, h1, h2⟩
      exact ⟨p, hs1 p hp, h1, h2⟩
    · rintro ⟨p, hp, h1, h2⟩
      exact ⟨p, hs2 p hp, h1, h2⟩
  have hmem : ∀ y, y ∈ yearsOf a (owner_grp s) ↔ y ∈ ["2019", "2020", "2021"] := by
    intro y
    rw [mem_yearsOf_owner_grp, htrans]
    constructor
    · rintro ⟨p, hp, h1, h2⟩
      exact h2 ▸ hcover p hp h1
    · intro hy
      have hy3 : y = "2019" ∨ y = "2020" ∨ y = "2021" := by simpa using hy
      rcases hy3 with rfl | rfl | rfl
      · exact h19
      · exact h20
      · exact h21
  have hy19 : "2019" ∈ yearsOf a (owner_grp s) := (hmem _).mpr (by simp)
  have hlk := lookupKey_of_yearsOf_mem hy19
  have hsorted := pairwise_yearsOf (a := a) (goodGrp_owner_grp s)
  have htarget : (["2019", "2020", "2021"] : List String).Pairwise strLt := by decide
  have heq : yearsOf a (owner_grp s) = ["2019", "2020", "2021"] :=
    eq_of_pairwise_strLt hsorted htarget hmem
  rw [heq] at hlk
  refine ⟨hlk, ?_⟩
  have hmem2 : (a, ["2019", "2020", "2021"]) ∈ owner_grp s := lookupKey_mem hlk
  simp only [file_authors, ownersFor, List.mem_map]
  exact ⟨(a, ["2019", "2020", "2021"]), hmem2, rfl⟩

/-- C3 witness: a concrete file spanning 2019-2021 with the commits in
scrambled order. -/
theorem years_sorted_for_author_witness :
    lookupKey "A" (owner_grp [("A", "2021"), ("A", "2019"), ("A", "2020")]) =
        some ["2019", "2020", "2021"] ∧
      ("a.txt", "A", "2019, 2020, 2021") ∈
        file_authors "a.txt" [("A", "2021"), ("A", "2019"), ("A", "2020")] :=
  years_sorted_for_author [("A", "2021"), ("A", "2019"), ("A", "2020")]
    [("A", "2021"), ("A", "2019"), ("A", "2020")] "A" "a.txt" (by decide) (by decide)
    (by decide) (by decide) (by decide)

/-- C4: commits by "Alvar" (2020) and "Alvar Penning" (2021) on
`a.txt` merge into the single record
`("a.txt", "Alvar Penning", "2020, 2021")`, for either iteration order
of the deduplicating set. -/
theorem alias_merged_single_record (s : List (String × String))
    (hset : IsPySet s [("Alvar", "2020"), ("Alvar Penning", "2021")]) :
    file_authors "a.txt" s = [("a.txt", "Alvar Penning", "2020, 2021")] := by
  rcases pySet_pair_cases (by decide) hset with rfl | rfl
  · decide
  · decide

/-- C4 witness: one of the two set orders, evaluated. -/
theorem alias_merged_single_record_witness :
    file_authors "a.txt" [("Alvar", "2020"), ("Alvar Penning", "2021")] =
      [("a.txt", "Alvar Penning", "2020, 2021")] :=
  alias_merged_single_record _ (by decide)

/-- C5: every run yields at most one record per (file, author) pair, and
every aggregated years-sequence is duplicate-free and strictly
increasing in Python's string order; each aggregated entry is emitted as
the comma-joined record. -/
theorem ownership_records_invariant (f : String) (s : List (String × String)) :
    ((file_authors f s).map fun r => (r.1, r.2.1)).Nodup ∧
      ∀ ay ∈ owner_grp s, ay.2.Nodup ∧ ay.2.Pairwise strLt ∧
        (f, ay.1, String.intercalate ", " ay.2) ∈ file_authors f s := by
  obtain ⟨hk, hys⟩ := goodGrp_owner_grp s
  constructor
  · have hmap : ((file_authors f s).map fun r => (r.1, r.2.1)) =
        (keys (owner_grp s)).map fun k => (f, k) := by
      simp only [file_authors, ownersFor, keys, List.map_map]
      rfl
    rw [hmap]
    exact List.Nodup.map (fun a b h => by simpa using h) hk
  · intro ay hay
    have hp := hys ay hay
    refine ⟨pairwise_strLt_nodup hp, hp, ?_⟩
    simp only [file_authors, ownersFor, List.mem_map]
    exact ⟨ay, hay, rfl⟩

/-- C6: a path on the exclusion list is filtered out of the tracked-file
enumeration, so no ownership record is ever emitted for it, whatever the
tracked-file listing and whatever every file's history. -/
theorem ignored_file_no_records (p : String) (hp : p ∈ FILE_IGNORE) (lsOut : String)
    (hist : String → List (String × String)) :
    p ∉ tracked_files lsOut ∧ ∀ r ∈ main_owners lsOut hist, r.1 ≠ p := by
  constructor
  · intro hmem
    exact not_ignored_of_mem_tracked hmem hp
  · intro r hr
    obtain ⟨f, hf, hrf⟩ := mem_main_owners.mp hr
    rw [file_authors_fst hrf]
    intro hc
    subst hc
    exact not_ignored_of_mem_tracked hf hp

/-- C6 witness: `go.mod` is tracked (and listed) yet never enumerated. -/
theorem ignored_file_no_records_witness :
    "go.mod" ∈ FILE_IGNORE ∧ "go.mod" ∉ tracked_files "go.mod a.txt" :=
  ⟨by decide,
    (ignored_file_no_records "go.mod" (by decide) "go.mod a.txt"
        (fun _ => [("A", "2020")])).1⟩

/-- C7: a non-zero exit status of the underlying git command makes
`file_authors` propagate `CalledProcessError` — nothing is retried or
caught, and no ownership records are produced for the file. -/
theorem git_failure_aborts (f : String) (pr : ProcResult) (hc : pr.returncode ≠ 0)
    (toYear : Int → String)
    (setOrder : List (String × String) → List (String × String)) :
    file_authors_exec f pr toYear setOrder =
      .error (.calledProcessError pr.returncode) := by
  rw [file_authors_exec, git, if_neg hc]

/-- C7 witness: exit status 128 (file not under version control). -/
theorem git_failure_aborts_witness :
    (128 : Nat) ≠ 0 ∧
      file_authors_exec "a.txt" ⟨128, ""⟩ (fun _ => "") id =
        .error (.calledProcessError 128) :=
  ⟨by decide, git_failure_aborts "a.txt" ⟨128, ""⟩ (by decide) (fun _ => "") id⟩

/-- C8: the identity normalizer is idempotent: rewriting twice equals
rewriting once, for every raw author name. -/
theorem rewrite_idempotent (a : String) : rewrite (rewrite a) = rewrite a := by
  by_cases h : ("Alvar" : String) = a
  · subst h
    decide
  · simp [rewrite, AUTHOR_REWRITE, dictGet, h]

/-- C9 (counterexample): the tracked path "a " contains a space, yet the
enumerator yields exactly one fragment for it, not two or more. -/
theorem split_fragments_counterexample :
    (' ' ∈ "a ".data) ∧ (pySplitWs (lsFilesStdout ["a "]).data).length = 1 ∧
      (pySplitWs (lsFilesStdout ["a "]).data).map (fun w => String.mk w) = ["a"] :=
  ⟨by decide, by decide, by decide⟩

/-- C9 (amended): file enumeration splits the tracked-file listing on
arbitrary whitespace, so a tracked path containing a space or tab is
never yielded intact: it is not among the split fragments (which are
whitespace-free), hence never enumerated — only its fragments are
checked against the exclusion list — and no emitted record ever names
it, so it is never passed to the history reader. -/
theorem whitespace_path_never_intact (path : String)
    (hws : ' ' ∈ path.data ∨ '\t' ∈ path.data) (lsOut : String)
    (hist : String → List (String × String)) :
    path.data ∉ pySplitWs lsOut.data ∧ path ∉ tracked_files lsOut ∧
      ∀ r ∈ main_owners lsOut hist, r.1 ≠ path := by
  have hfrag : path.data ∉ pySplitWs lsOut.data := by
    intro hmem
    have hno := pySplitWs_no_space hmem
    rcases hws with hws | hws
    · have hsp := hno ' ' hws
      simp [isPySpace] at hsp
    · have hsp := hno '\t' hws
      simp [isPySpace] at hsp
  refine ⟨hfrag, ?_, ?_⟩
  · intro hmem
    exact hfrag (data_mem_split_of_mem_tracked hmem)
  · intro r hr
    obtain ⟨f, hf, hrf⟩ := mem_main_owners.mp hr
    rw [file_authors_fst hrf]
    intro hc
    subst hc
    exact hfrag (data_mem_split_of_mem_tracked hf)

/-- C9 witness: the path "a b" appears verbatim in a listing but is
never enumerated. -/
theorem whitespace_path_never_intact_witness :
    (' ' ∈ "a b".data ∨ '\t' ∈ "a b".data) ∧ "a b" ∉ tracked_files "x\na b\ny" :=
  ⟨Or.inl (by decide),
    (whitespace_path_never_intact "a b" (Or.inl (by decide)) "x\na b\ny"
        (fun _ => [("A", "2020")])).2.1⟩

/-- C10: years are compared as strings, so for equal-length digit
strings the lexicographic order used by the aggregation coincides with
numeric order, while for mixed lengths it can invert it: "1000" sorts
before "999" although 999 < 1000, and the aggregator indeed stores
["1000", "999"] for such input. -/
theorem years_lexicographic (ys zs : List Char) (hlen : ys.length = zs.length)
    (hys : ∀ c ∈ ys, c.isDigit = true) (hzs : ∀ c ∈ zs, c.isDigit = true) :
    (lexLt ys zs = true ↔ natOfDigits ys < natOfDigits zs) ∧
      (lexLt "1000".data "999".data = true ∧
        natOfDigits "999".data < natOfDigits "1000".data) ∧
      owner_grp [("A", "999"), ("A", "1000")] = [("A", ["1000", "999"])] :=
  ⟨digit_lexLt_iff ys zs hlen hys hzs, ⟨by decide, by decide⟩, by decide⟩

/-- C10 witness: equal-length year strings 2019 and 2020. -/
theorem years_lexicographic_witness :
    ("2019".data.length = "2020".data.length ∧
        (∀ c ∈ "2019".data, c.isDigit = true) ∧ ∀ c ∈ "2020".data, c.isDigit = true) ∧
      (lexLt "2019".data "2020".data = true ↔
        natOfDigits "2019".data < natOfDigits "2020".data) :=
  ⟨⟨by decide, by decide, by decide⟩,
    (years_lexicographic "2019".data "2020".data (by decide) (by decide) (by decide)).1⟩

end ReuseHeaders
